import Mathlib

/-!
Verification of the Markdown/HTML content converter (`mcp_kanka/converter.py`).

The converter is pure text manipulation, shallowly embedded here over
`Str := List Char`.  Python strings become `List Char`; Python exceptions
(`str.format` raising `IndexError`) become `Option` results; the two regular
expressions of the source (`MENTION_PATTERN`, used through `re.sub`, and the
final `\n{3,}` cleanup) are embedded as explicit left-to-right scanners with
the exact backtracking-free semantics the patterns have; the HTML fragment
produced by BeautifulSoup (an external parser) is modelled as a tree of text
leaves and elements, and `BeautifulSoup.find_all` as a pre-order traversal of
descendants.  The external `markdown.Markdown.convert` renderer is a parameter
of `markdown_to_html`.
-/

abbrev Str := List Char

/-- Python `str.isspace` for the whitespace characters that occur in this
converter's output (the ASCII whitespace set). -/
def pyIsSpace (c : Char) : Bool :=
  c = ' ' || c = '\t' || c = '\n' || c = '\r' || c = '\x0b' || c = '\x0c'

/-- Python `str.strip()`: drop leading and trailing whitespace. -/
def pyStrip (l : Str) : Str :=
  (((l.dropWhile pyIsSpace).reverse).dropWhile pyIsSpace).reverse

/-- Python's substring test `pat in l`. -/
def containsSub (pat : Str) : Str → Bool
  | [] => pat.isEmpty
  | c :: cs => pat.isPrefixOf (c :: cs) || containsSub pat cs

/-- Python `sep.join(items)`. -/
def joinSep (sep : Str) : List Str → Str
  | [] => []
  | [s] => s
  | s :: rest => s ++ sep ++ joinSep sep rest

/-- Python `s.split(sep)` for a one-character separator. -/
def splitOnChar (sep : Char) : Str → List Str
  | [] => [[]]
  | d :: ds =>
    if d = sep then [] :: splitOnChar sep ds
    else
      match splitOnChar sep ds with
      | [] => [[d]]
      | s :: ss => (d :: s) :: ss

/-- Decimal representation of a natural number, as characters. -/
def natRepr (n : Nat) : Str := (Nat.repr n).toList

/-- The `f"{i}. {content}"` labelling loop of the ordered-list branch:
`for i, li in enumerate(..., 1)`. -/
def numberItems : Nat → List Str → List Str
  | _, [] => []
  | i, s :: ss => (natRepr i ++ ". ".toList ++ s) :: numberItems (i + 1) ss

theorem length_dropWhile_le (p : Char → Bool) (l : Str) :
    (l.dropWhile p).length ≤ l.length := by
  induction l with
  | nil => simp [List.dropWhile]
  | cons c cs ih =>
    simp only [List.dropWhile]
    split
    · exact Nat.le_trans ih (Nat.le_succ _)
    · simp

/-- Python `content.replace(old, new)`: replace every non-overlapping
occurrence, scanning left to right.  (The patterns substituted by the
converter are the placeholder tokens, which are never empty.) -/
def replaceAll (l pat rep : Str) : Str :=
  match l with
  | [] => []
  | c :: cs =>
    if pat ≠ [] ∧ pat.isPrefixOf (c :: cs) then
      rep ++ replaceAll ((c :: cs).drop pat.length) pat rep
    else c :: replaceAll cs pat rep
termination_by l.length
decreasing_by
· rename_i h
  have hp : 0 < pat.length := List.length_pos.mpr h.1
  simp only [List.length_drop, List.length_cons]
  omega
· simp only [List.length_cons]
  omega

/-- Python `template.format(*args)` restricted to the `\x7b\x7d` auto-numbered
fields that occur in the converter's template.  A field with no argument left
raises `IndexError` in Python; that (and a stray brace, `ValueError`) is the
`none` result. -/
def pyFormat : Str → List Str → Option Str
  | [], _ => some []
  | '\x7b' :: '\x7d' :: rest, args =>
    match args with
    | [] => none
    | a :: args2 => (pyFormat rest args2).map (fun t => a ++ t)
  | '\x7b' :: _, _ => none
  | '\x7d' :: _, _ => none
  | c :: rest, args => (pyFormat rest args).map (fun t => c :: t)

/-- `PLACEHOLDER_TEMPLATE = "__KANKA_MENTION_\x7b\x7d__\x7b\x7d"` exactly as in
the source: it contains two positional fields. -/
def PLACEHOLDER_TEMPLATE : Str := "__KANKA_MENTION_\x7b\x7d__\x7b\x7d".toList

/-- One attempt of `MENTION_PATTERN` at the start of the string.  The regex
is `\[entity:(\d+)(?:\|([^\]]+))?\]`; both quantified groups are greedy, and
since a digit is neither `|` nor `]` and a non-`]` character is not `]`, the
backtracking of the Python engine can never succeed after the greedy run, so
the match is equivalent to this deterministic scanner.  Returns the two
groups (`group(2)` is `none` when the optional display part is absent) and
the remainder of the string. -/
def matchMentionAt : Str → Option ((Str × Option Str) × Str)
  | '[' :: 'e' :: 'n' :: 't' :: 'i' :: 't' :: 'y' :: ':' :: rest =>
    let ds := rest.takeWhile Char.isDigit
    let r2 := rest.dropWhile Char.isDigit
    if ds = [] then none
    else
      match r2 with
      | ']' :: r3 => some ((ds, none), r3)
      | '|' :: r3 =>
        let ts := r3.takeWhile (fun c => c != ']')
        let r4 := r3.dropWhile (fun c => c != ']')
        if ts = [] then none
        else
          match r4 with
          | ']' :: r5 => some ((ds, some ts), r5)
          | _ => none
      | _ => none
  | _ => none

/-- The leftmost match of `MENTION_PATTERN`, as `re.sub` finds it: the first
position at which `matchMentionAt` succeeds.  Returns the text before the
match, the groups, and the text after the match. -/
def findMention : Str → Option (Str × (Str × Option Str) × Str)
  | [] => none
  | c :: cs =>
    match matchMentionAt (c :: cs) with
    | some (m, rest) => some ([], m, rest)
    | none =>
      match findMention cs with
      | some (p, m, rest) => some (c :: p, m, rest)
      | none => none

/-- The literal characters matched by `MENTION_PATTERN` for groups
`(ds, ts)`: the canonical wire format of a mention (spec §6). -/
def mentionChars (ds : Str) (ts : Option Str) : Str :=
  match ts with
  | none => "[entity:".toList ++ ds ++ [']']
  | some t => "[entity:".toList ++ ds ++ '|' :: t ++ [']']

theorem mentionChars_length_pos (ds : Str) (ts : Option Str) :
    0 < (mentionChars ds ts).length := by
  cases ts <;> simp [mentionChars]

/-- Soundness of the scanner: a successful match at the head of `l` consumed
exactly one well-formed mention, whose groups satisfy the grammar. -/
theorem matchMentionAt_sound {l ds : Str} {ts : Option Str} {rest : Str}
    (h : matchMentionAt l = some ((ds, ts), rest)) :
    l = mentionChars ds ts ++ rest ∧ ds ≠ [] ∧ (∀ c ∈ ds, c.isDigit = true) ∧
      ∀ t, ts = some t → t ≠ [] ∧ ∀ c ∈ t, c ≠ ']' := by
  rw [matchMentionAt.eq_def] at h
  split at h
  next rest0 =>
    dsimp only at h
    by_cases hds : rest0.takeWhile Char.isDigit = []
    · rw [if_pos hds] at h
      simp at h
    · rw [if_neg hds] at h
      split at h
      next r3 heq =>
        simp only [Option.some.injEq, Prod.mk.injEq] at h
        obtain ⟨⟨rfl, rfl⟩, rfl⟩ := h
        refine ⟨?_, hds, fun c hc => List.mem_takeWhile_imp hc, by simp⟩
        have hdec : rest0 = rest0.takeWhile Char.isDigit ++ (']' :: r3) := by
          rw [← heq, List.takeWhile_append_dropWhile]
        simp only [mentionChars, List.append_assoc, List.singleton_append]
        rw [← hdec]
        rfl
      next r3 heq =>
        by_cases hts : r3.takeWhile (fun c => c != ']') = []
        · rw [if_pos hts] at h
          simp at h
        · rw [if_neg hts] at h
          split at h
          next r5 heq4 =>
            simp only [Option.some.injEq, Prod.mk.injEq] at h
            obtain ⟨⟨rfl, rfl⟩, rfl⟩ := h
            refine ⟨?_, hds, fun c hc => List.mem_takeWhile_imp hc, ?_⟩
            · have hdec : rest0 = rest0.takeWhile Char.isDigit ++ ('|' :: r3) := by
                rw [← heq, List.takeWhile_append_dropWhile]
              have hdec2 : r3 = r3.takeWhile (fun c => c != ']') ++ (']' :: r5) := by
                rw [← heq4, List.takeWhile_append_dropWhile]
              simp only [mentionChars, List.append_assoc, List.cons_append,
                List.singleton_append, List.nil_append]
              rw [← hdec2, ← hdec]
              rfl
            · intro t ht
              injection ht with ht
              subst ht
              refine ⟨hts, fun c hc => ?_⟩
              have := List.mem_takeWhile_imp hc
              simpa using this
          next => simp at h
      next => simp at h
  next => simp at h

theorem matchMentionAt_length {l : Str} {m : Str × Option Str} {rest : Str}
    (h : matchMentionAt l = some (m, rest)) : rest.length < l.length := by
  obtain ⟨ds, ts⟩ := m
  have hs := (matchMentionAt_sound h).1
  have hl := mentionChars_length_pos ds ts
  rw [hs, List.length_append]
  omega

theorem findMention_length {l pre : Str} {m : Str × Option Str} {post : Str}
    (h : findMention l = some (pre, m, post)) : post.length < l.length := by
  induction l generalizing pre with
  | nil => exact absurd h (by simp [findMention])
  | cons c cs ih =>
    cases hm : matchMentionAt (c :: cs) with
    | some v =>
      obtain ⟨m2, rest⟩ := v
      simp only [findMention, hm, Option.some.injEq, Prod.mk.injEq] at h
      obtain ⟨h1, h2, h3⟩ := h
      subst h3
      exact matchMentionAt_length hm
    | none =>
      cases hf : findMention cs with
      | some v =>
        obtain ⟨p2, m2, rest⟩ := v
        simp only [findMention, hm, hf, Option.some.injEq, Prod.mk.injEq] at h
        obtain ⟨h1, h2, h3⟩ := h
        subst h2
        subst h3
        have := ih hf
        simp only [List.length_cons]
        omega
      | none => simp [findMention, hm, hf] at h

/-- The loop body of `_protect_mentions`: repeatedly take the leftmost
mention, format a placeholder for it (`PLACEHOLDER_TEMPLATE.format(counter)`),
record `(placeholder, entity_id, text)` and substitute.  `none` models the
`IndexError` that `str.format` raises when the template has more fields than
arguments. -/
def protectLoop (counter : Nat) (l : Str) :
    Option (Str × List (Str × Str × Option Str)) :=
  match h : findMention l with
  | none => some (l, [])
  | some (pre, m, post) =>
    match pyFormat PLACEHOLDER_TEMPLATE [natRepr counter] with
    | none => none
    | some placeholder =>
      match protectLoop (counter + 1) post with
      | none => none
      | some (protectedRest, mentions) =>
        some (pre ++ placeholder ++ protectedRest,
          (placeholder, m.1, m.2) :: mentions)
termination_by l.length
decreasing_by
exact findMention_length h

/-- `_protect_mentions`: replace mentions with placeholders, returning the
protected content and the list of `(placeholder, entity_id, text)` records
(`none` models a raised exception). -/
def _protect_mentions (content : Str) :
    Option (Str × List (Str × Str × Option Str)) :=
  protectLoop 0 content

/-- Python truthiness of the optional `text` group (`None` and `""` are
falsy). -/
def pyTruthy : Option Str → Bool
  | none => false
  | some t => !t.isEmpty

/-- `_restore_mentions`: for each record, rebuild the literal mention text
(`f"[entity:{id}|{text}]"` when `text` is truthy, else `f"[entity:{id}]"`)
and substitute it for the placeholder. -/
def _restore_mentions (content : Str)
    (mentions : List (Str × Str × Option Str)) : Str :=
  mentions.foldl
    (fun acc pm =>
      let mention :=
        if pyTruthy pm.2.2 then
          "[entity:".toList ++ pm.2.1 ++ '|' :: (pm.2.2.getD []) ++ [']']
        else
          "[entity:".toList ++ pm.2.1 ++ [']']
      replaceAll acc pm.1 mention)
    content

/-- `markdown_to_html`: empty input short-circuits to empty output; otherwise
protect mentions, run the external Markdown renderer (`self.md.convert`,
passed here as the parameter `mdConvert`), and restore mentions.  `none`
models an exception escaping from `_protect_mentions`. -/
def markdown_to_html (mdConvert : Str → Str) (content : Str) : Option Str :=
  if content = [] then some []
  else
    match _protect_mentions content with
    | none => none
    | some (protectedContent, mentions) =>
      some (_restore_mentions (mdConvert protectedContent) mentions)

/-- A node of the HTML fragment tree produced by `BeautifulSoup(html,
"html.parser")`: a text leaf (`element.name is None`) or an element with a
tag name, an attribute mapping and an ordered list of children. -/
inductive Node where
  | text (s : Str)
  | elem (tag : String) (attrs : List (String × Str)) (children : List Node)

def Node.children : Node → List Node
  | Node.text _ => []
  | Node.elem _ _ cs => cs

/-- The tag-name test of `find_all(name, recursive=False)`: only elements
match, text nodes never do. -/
def isTag (name : String) : Node → Bool
  | Node.text _ => false
  | Node.elem t _ _ => t = name

/-- `element.find_all(tags)` (recursive, the default): every descendant
element whose tag is in `tags`, in document (pre-)order, searching the given
list of children. -/
def findAllDesc (tags : List String) : List Node → List Node
  | [] => []
  | Node.text _ :: rest => findAllDesc tags rest
  | Node.elem t a c :: rest =>
    (if t ∈ tags then [Node.elem t a c] else []) ++ findAllDesc tags c ++
      findAllDesc tags rest

mutual
/-- `element.get_text()`: the concatenated raw text of all text descendants. -/
def getText : Node → Str
  | Node.text s => s
  | Node.elem _ _ c => getTextList c

def getTextList : List Node → Str
  | [] => []
  | n :: ns => getText n ++ getTextList ns
end

theorem str_sizeOf_pos (s : Str) : 0 < sizeOf s := by
  cases s <;> simp_arith

theorem sizeOf_children_lt (n : Node) : sizeOf n.children < sizeOf n := by
  cases n with
  | text s =>
    have := str_sizeOf_pos s
    simp only [Node.children, Node.text.sizeOf_spec, List.nil.sizeOf_spec]
    omega
  | elem t a c =>
    simp only [Node.children, Node.elem.sizeOf_spec]
    omega

theorem sizeOf_lt_of_mem_findAllDesc :
    ∀ (tags : List String) (ns : List Node) (e : Node),
      e ∈ findAllDesc tags ns → sizeOf e < sizeOf ns
  | tags, [], e, h => absurd h (by simp [findAllDesc])
  | tags, Node.text s :: rest, e, h => by
    simp only [findAllDesc] at h
    have := sizeOf_lt_of_mem_findAllDesc tags rest e h
    simp only [List.cons.sizeOf_spec]
    omega
  | tags, Node.elem t a c :: rest, e, h => by
    simp only [findAllDesc, List.mem_append] at h
    rcases h with (h | h) | h
    · have he : e = Node.elem t a c := by
        by_cases ht : t ∈ tags
        · simpa [ht] using h
        · simp [ht] at h
      subst he
      simp only [List.cons.sizeOf_spec]
      omega
    · have := sizeOf_lt_of_mem_findAllDesc tags c e h
      simp only [List.cons.sizeOf_spec, Node.elem.sizeOf_spec]
      omega
    · have := sizeOf_lt_of_mem_findAllDesc tags rest e h
      simp only [List.cons.sizeOf_spec]
      omega

mutual
/-- `_html_to_markdown_recursive`: the per-tag rendering rule table.  The
dispatch follows the `if`/`elif` chain of the source exactly; the calls
`pyStrip (joinRenders …)` inline the body of `_process_children` (render all
children in order, concatenate, strip the combined string). -/
def _html_to_markdown_recursive : Node → Str
  | Node.text s => pyStrip s
  | Node.elem tag attrs children =>
    if tag = "p" then pyStrip (joinRenders children) ++ "\n\n".toList
    else if tag = "br" then ['\n']
    else if tag = "h1" ∨ tag = "h2" ∨ tag = "h3" ∨ tag = "h4" ∨ tag = "h5" ∨
        tag = "h6" then
      List.replicate ((tag.toList.getD 1 '0').toNat - '0'.toNat) '#' ++
        ' ' :: pyStrip (joinRenders children) ++ "\n\n".toList
    else if tag = "strong" ∨ tag = "b" then
      "**".toList ++ pyStrip (joinRenders children) ++ "**".toList
    else if tag = "em" ∨ tag = "i" then
      '*' :: pyStrip (joinRenders children) ++ ['*']
    else if tag = "code" then
      '`' :: getTextList children ++ ['`']
    else if tag = "pre" then
      let content :=
        match (findAllDesc ["code"] children).head? with
        | some codeElem => getText codeElem
        | none => getTextList children
      "```\n".toList ++ content ++ "\n```\n\n".toList
    else if tag = "a" then
      let text := pyStrip (joinRenders children)
      let href := (attrs.lookup "href").getD []
      if containsSub "[entity:".toList text then text
      else '[' :: text ++ ']' :: '(' :: href ++ [')']
    else if tag = "ul" then
      joinSep ['\n']
        ((children.filter (isTag "li")).attach.map (fun li =>
          "- ".toList ++ pyStrip (joinRenders li.val.children))) ++
        "\n\n".toList
    else if tag = "ol" then
      joinSep ['\n']
        (numberItems 1 ((children.filter (isTag "li")).attach.map (fun li =>
          pyStrip (joinRenders li.val.children)))) ++ "\n\n".toList
    else if tag = "blockquote" then
      joinSep ['\n']
        ((splitOnChar '\n' (pyStrip (pyStrip (joinRenders children)))).map
          (fun line => "> ".toList ++ line)) ++ "\n\n".toList
    else if tag = "hr" then "---\n\n".toList
    else if tag = "table" then
      let rows := (findAllDesc ["tr"] children).attach.map (fun tr =>
        "| ".toList ++
          joinSep " | ".toList
            ((findAllDesc ["td", "th"] tr.val.children).attach.map (fun td =>
              pyStrip (pyStrip (joinRenders td.val.children)))) ++
          " |".toList)
      if rows = [] then []
      else
        let rows2 :=
          if 1 < rows.length then
            let headerCells := (splitOnChar '|' (rows.headD [])).length - 2
            let separator :=
              "| ".toList ++
                joinSep " | ".toList (List.replicate headerCells "---".toList) ++
                " |".toList
            List.insertIdx 1 separator rows
          else rows
        joinSep ['\n'] rows2 ++ "\n\n".toList
    else if tag = "div" ∨ tag = "span" then pyStrip (joinRenders children)
    else pyStrip (joinRenders children)
termination_by n => sizeOf n
decreasing_by
all_goals simp_wf
all_goals first
| omega
| (have h1 := List.sizeOf_lt_of_mem (List.mem_of_mem_filter li.2)
   have h2 := sizeOf_children_lt li.1
   omega)
| (have h1 := sizeOf_lt_of_mem_findAllDesc _ _ _ td.2
   have h2 := sizeOf_lt_of_mem_findAllDesc _ _ _ tr.2
   have h3 := sizeOf_children_lt td.1
   have h4 := sizeOf_children_lt tr.1
   omega)

/-- The concatenation loop inside `_process_children`. -/
def joinRenders : List Node → Str
  | [] => []
  | n :: ns => _html_to_markdown_recursive n ++ joinRenders ns
termination_by ns => sizeOf ns
decreasing_by
all_goals simp_wf
all_goals omega
end

/-- `_process_children`: render every child in document order, concatenate,
and strip leading/trailing whitespace from the combined string. -/
def _process_children (ns : List Node) : Str :=
  pyStrip (joinRenders ns)

/-- The final-cleanup substitution `re.sub(r"\n{3,}", "\n\n", ·)`: each
leftmost-then-greedy run of three or more newlines becomes exactly two. -/
def collapseNewlines : Str → Str
  | [] => []
  | '\n' :: '\n' :: '\n' :: rest =>
    '\n' :: '\n' :: collapseNewlines (rest.dropWhile (fun c => c = '\n'))
  | c :: cs => c :: collapseNewlines cs
termination_by l => l.length
decreasing_by
· have := length_dropWhile_le (fun c => c = '\n') rest
  simp only [List.length_cons]
  omega
· simp only [List.length_cons]
  omega

/-- `html_to_markdown`: parse (external, the tree is the input here; the
soup's root behaves as an element named `[document]`, which takes the
pass-through branch), render recursively, then
`re.sub(r"\n{3,}", "\n\n", markdown_text.strip())`.  An empty HTML string
parses to a root with no children, for which this agrees with the `if not
html: return ""` short-circuit of the source. -/
def html_to_markdown (children : List Node) : Str :=
  collapseNewlines
    (pyStrip (_html_to_markdown_recursive (Node.elem "[document]" [] children)))

/-- A well-formed mention in the wire format of spec §6: `[entity:<id>]` or
`[entity:<id>|<display text>]` with a nonempty digit id and nonempty display
text excluding `]`. -/
def IsMentionStr (w : Str) : Prop :=
  (∃ ds, ds ≠ [] ∧ (∀ c ∈ ds, c.isDigit = true) ∧ w = mentionChars ds none) ∨
  (∃ ds t, ds ≠ [] ∧ (∀ c ∈ ds, c.isDigit = true) ∧ t ≠ [] ∧
    (∀ c ∈ t, c ≠ ']') ∧ w = mentionChars ds (some t))

/-- The string `s` contains a well-formed mention as a substring. -/
def ContainsMention (s : Str) : Prop :=
  ∃ pre w post, IsMentionStr w ∧ s = pre ++ w ++ post

theorem pyFormat_template (a : Str) :
    pyFormat PLACEHOLDER_TEMPLATE [a] = none := rfl

theorem protectLoop_found {l pre : Str} {m : Str × Option Str} {post : Str}
    (counter : Nat) (h : findMention l = some (pre, m, post)) :
    protectLoop counter l = none := by
  rw [protectLoop, h]
  rfl

theorem protectLoop_no_match {l : Str} (counter : Nat)
    (h : findMention l = none) : protectLoop counter l = some (l, []) := by
  rw [protectLoop, h]

theorem findMention_sound {l : Str} : ∀ {pre ds : Str} {ts : Option Str}
    {post : Str}, findMention l = some (pre, (ds, ts), post) →
    l = pre ++ mentionChars ds ts ++ post ∧ ds ≠ [] ∧
      (∀ c ∈ ds, c.isDigit = true) ∧
      ∀ t, ts = some t → t ≠ [] ∧ ∀ c ∈ t, c ≠ ']' := by
  induction l with
  | nil => intro pre ds ts post h; simp [findMention] at h
  | cons c cs ih =>
    intro pre ds ts post h
    cases hm : matchMentionAt (c :: cs) with
    | some v =>
      obtain ⟨m2, rest⟩ := v
      simp only [findMention, hm, Option.some.injEq, Prod.mk.injEq] at h
      obtain ⟨h1, h2, h3⟩ := h
      subst h1
      subst h3
      rw [h2] at hm
      have := matchMentionAt_sound hm
      simpa using this
    | none =>
      cases hf : findMention cs with
      | some v =>
        obtain ⟨p2, m2, rest⟩ := v
        simp only [findMention, hm, hf, Option.some.injEq, Prod.mk.injEq] at h
        obtain ⟨h1, h2, h3⟩ := h
        subst h2
        subst h3
        obtain ⟨ha, hb, hc, hd⟩ := ih hf
        subst h1
        refine ⟨?_, hb, hc, hd⟩
        simp [ha]
      | none => simp [findMention, hm, hf] at h

/-- A successful leftmost match exhibits a well-formed mention substring. -/
theorem containsMention_of_findMention {s pre : Str} {m : Str × Option Str}
    {post : Str} (h : findMention s = some (pre, m, post)) :
    ContainsMention s := by
  obtain ⟨ds, ts⟩ := m
  obtain ⟨ha, hb, hc, hd⟩ := findMention_sound h
  refine ⟨pre, mentionChars ds ts, post, ?_, ha⟩
  cases ts with
  | none => exact Or.inl ⟨ds, hb, hc, rfl⟩
  | some t =>
    obtain ⟨ht1, ht2⟩ := hd t rfl
    exact Or.inr ⟨ds, t, hb, hc, ht1, ht2, rfl⟩

theorem takeWhile_append_of_all {p : Char → Bool} {l₁ : Str}
    (h : ∀ c ∈ l₁, p c = true) (l₂ : Str) :
    (l₁ ++ l₂).takeWhile p = l₁ ++ l₂.takeWhile p := by
  induction l₁ with
  | nil => simp
  | cons c cs ih =>
    have hc : p c = true := h c (by simp)
    simp only [List.cons_append, List.takeWhile_cons, hc, if_true]
    rw [ih (fun d hd => h d (by simp [hd]))]

theorem dropWhile_append_of_all {p : Char → Bool} {l₁ : Str}
    (h : ∀ c ∈ l₁, p c = true) (l₂ : Str) :
    (l₁ ++ l₂).dropWhile p = l₂.dropWhile p := by
  induction l₁ with
  | nil => simp
  | cons c cs ih =>
    have hc : p c = true := h c (by simp)
    simp only [List.cons_append, List.dropWhile_cons, hc, if_true]
    exact ih (fun d hd => h d (by simp [hd]))

/-- Completeness of the scanner at a mention: the pattern matches at the
position where a well-formed mention starts. -/
theorem matchMentionAt_complete {w : Str} (hw : IsMentionStr w) (tail : Str) :
    matchMentionAt (w ++ tail) ≠ none := by
  rcases hw with ⟨ds, hne, hdig, rfl⟩ | ⟨ds, t, hne, hdig, htne, htc, rfl⟩
  · have hshape : mentionChars ds none ++ tail =
        '[' :: 'e' :: 'n' :: 't' :: 'i' :: 't' :: 'y' :: ':' ::
          (ds ++ ']' :: tail) := by
      simp [mentionChars]
    rw [hshape]
    simp only [matchMentionAt]
    have h1 : (ds ++ ']' :: tail).takeWhile Char.isDigit = ds := by
      rw [takeWhile_append_of_all hdig]
      simp [List.takeWhile_cons]
    have h2 : (ds ++ ']' :: tail).dropWhile Char.isDigit = ']' :: tail := by
      rw [dropWhile_append_of_all hdig]
      simp [List.dropWhile_cons]
    rw [h1, h2, if_neg hne]
    simp
  · have hshape : mentionChars ds (some t) ++ tail =
        '[' :: 'e' :: 'n' :: 't' :: 'i' :: 't' :: 'y' :: ':' ::
          (ds ++ '|' :: (t ++ ']' :: tail)) := by
      simp [mentionChars]
    rw [hshape]
    simp only [matchMentionAt]
    have h1 : (ds ++ '|' :: (t ++ ']' :: tail)).takeWhile Char.isDigit = ds := by
      rw [takeWhile_append_of_all hdig]
      simp [List.takeWhile_cons]
    have h2 : (ds ++ '|' :: (t ++ ']' :: tail)).dropWhile Char.isDigit =
        '|' :: (t ++ ']' :: tail) := by
      rw [dropWhile_append_of_all hdig]
      simp [List.dropWhile_cons]
    rw [h1, h2, if_neg hne]
    clear h1 h2
    have ht : ∀ c ∈ t, (c != ']') = true := by
      intro c hc
      simpa using htc c hc
    have h3 : (t ++ ']' :: tail).takeWhile (fun c => c != ']') = t := by
      rw [takeWhile_append_of_all ht]
      simp [List.takeWhile_cons]
    have h4 : (t ++ ']' :: tail).dropWhile (fun c => c != ']') = ']' :: tail := by
      rw [dropWhile_append_of_all ht]
      simp [List.dropWhile_cons]
    simp [h3, h4, htne]

theorem findMention_cover : ∀ (pre rest : Str),
    matchMentionAt rest ≠ none → findMention (pre ++ rest) ≠ none := by
  intro pre
  induction pre with
  | nil =>
    intro rest h
    cases rest with
    | nil => exact absurd rfl h
    | cons c cs =>
      intro hcontra
      cases hm : matchMentionAt (c :: cs) with
      | some v =>
        rw [List.nil_append] at hcontra
        simp only [findMention, hm] at hcontra
        exact Option.noConfusion hcontra
      | none => exact h hm
  | cons c cs ih =>
    intro rest h hcontra
    rw [List.cons_append] at hcontra
    cases hm : matchMentionAt (c :: (cs ++ rest)) with
    | some v =>
      simp only [findMention, hm] at hcontra
      exact Option.noConfusion hcontra
    | none =>
      cases hf : findMention (cs ++ rest) with
      | some v =>
        simp only [findMention, hm, hf] at hcontra
        exact Option.noConfusion hcontra
      | none => exact (ih rest h) hf

/-- Completeness: if `s` contains a well-formed mention then the leftmost
scan finds a match. -/
theorem findMention_of_containsMention {s : Str} (h : ContainsMention s) :
    findMention s ≠ none := by
  obtain ⟨pre, w, post, hw, rfl⟩ := h
  rw [List.append_assoc]
  exact findMention_cover pre (w ++ post)
    (fun hn => matchMentionAt_complete hw post hn)

theorem head?_dropWhile_not (p : Char → Bool) (l : Str) {c : Char}
    (h : (l.dropWhile p).head? = some c) : p c = false := by
  induction l with
  | nil => simp [List.dropWhile] at h
  | cons d ds ih =>
    rw [List.dropWhile_cons] at h
    by_cases hd : p d
    · rw [if_pos hd] at h
      exact ih h
    · rw [if_neg hd] at h
      simp only [List.head?_cons, Option.some.injEq] at h
      subst h
      simpa using hd

theorem getLast?_some_of_ne_nil {l : Str} (h : l ≠ []) :
    ∃ a, l.getLast? = some a ∧ a ∈ l := by
  cases hr : l.reverse with
  | nil => exact absurd (by simpa using congrArg List.reverse hr) h
  | cons a t =>
    refine ⟨a, ?_, ?_⟩
    · rw [← List.head?_reverse, hr]
      rfl
    · have ha : a ∈ l.reverse := by rw [hr]; simp
      simpa using ha

theorem getLast?_append_ne {l₁ l₂ : Str} (h : l₂ ≠ []) :
    (l₁ ++ l₂).getLast? = l₂.getLast? := by
  obtain ⟨a, ha, _⟩ := getLast?_some_of_ne_nil h
  rw [List.getLast?_append, ha]
  rfl

theorem pyStrip_head_not_space {l : Str} {c : Char}
    (h : (pyStrip l).head? = some c) : pyIsSpace c = false := by
  rw [pyStrip, List.head?_reverse] at h
  have hne : ((l.dropWhile pyIsSpace).reverse).dropWhile pyIsSpace ≠ [] := by
    intro hnil
    rw [hnil] at h
    simp at h
  have h2 : ((l.dropWhile pyIsSpace).reverse).getLast? = some c := by
    conv_lhs =>
      rw [← List.takeWhile_append_dropWhile (p := pyIsSpace)
        (l := (l.dropWhile pyIsSpace).reverse)]
    rw [getLast?_append_ne hne]
    exact h
  rw [List.getLast?_reverse] at h2
  exact head?_dropWhile_not _ _ h2

theorem pyStrip_getLast_not_space {l : Str} {c : Char}
    (h : (pyStrip l).getLast? = some c) : pyIsSpace c = false := by
  rw [pyStrip, List.getLast?_reverse] at h
  exact head?_dropWhile_not _ _ h

theorem dropWhile_eq_self_of_head (p : Char → Bool) (l : Str)
    (h : ∀ c, l.head? = some c → p c = false) : l.dropWhile p = l := by
  cases l with
  | nil => simp
  | cons d ds =>
    have hd := h d rfl
    simp [List.dropWhile_cons, hd]

theorem pyStrip_eq_self {l : Str}
    (h1 : ∀ c, l.head? = some c → pyIsSpace c = false)
    (h2 : ∀ c, l.getLast? = some c → pyIsSpace c = false) : pyStrip l = l := by
  rw [pyStrip, dropWhile_eq_self_of_head _ _ h1,
    dropWhile_eq_self_of_head _ _
      (fun c hc => h2 c (by rwa [List.head?_reverse] at hc)),
    List.reverse_reverse]

theorem pyStrip_idem (l : Str) : pyStrip (pyStrip l) = pyStrip l :=
  pyStrip_eq_self (fun _ hc => pyStrip_head_not_space hc)
    (fun _ hc => pyStrip_getLast_not_space hc)

theorem pyStrip_decomp (l : Str) :
    ∃ pre suf, l = pre ++ pyStrip l ++ suf ∧
      (∀ c ∈ pre, pyIsSpace c = true) ∧ ∀ c ∈ suf, pyIsSpace c = true := by
  refine ⟨l.takeWhile pyIsSpace,
    (((l.dropWhile pyIsSpace).reverse).takeWhile pyIsSpace).reverse, ?_, ?_, ?_⟩
  · have hmid : pyStrip l ++
        (((l.dropWhile pyIsSpace).reverse).takeWhile pyIsSpace).reverse =
        l.dropWhile pyIsSpace := by
      rw [pyStrip, ← List.reverse_append, List.takeWhile_append_dropWhile,
        List.reverse_reverse]
    rw [List.append_assoc, hmid, List.takeWhile_append_dropWhile]
  · exact fun c hc => List.mem_takeWhile_imp hc
  · intro c hc
    rw [List.mem_reverse] at hc
    exact List.mem_takeWhile_imp hc

theorem collapse_eq_nil_iff (w : Str) : collapseNewlines w = [] ↔ w = [] := by
  rw [collapseNewlines.eq_def]
  split <;> simp

theorem collapse_head (w : Str) : (collapseNewlines w).head? = w.head? := by
  rw [collapseNewlines.eq_def]
  split <;> simp

theorem collapse_cons_of_shape {c : Char} {cs : Str}
    (h : ∀ rest, c = '\n' → cs = '\n' :: '\n' :: rest → False) :
    collapseNewlines (c :: cs) = c :: collapseNewlines cs := by
  rw [collapseNewlines.eq_def]
  split
  case h_1 =>
    rename_i heq
    simp at heq
  case h_2 =>
    rename_i rest heq
    injection heq with h1 h2
    exact (h rest h1 h2).elim
  case h_3 =>
    rename_i c2 cs2 hcond heq
    injection heq with h1 h2
    subst h1
    subst h2
    rfl

theorem collapse_getLast (w : Str) :
    (collapseNewlines w).getLast? = w.getLast? := by
  induction w using collapseNewlines.induct with
  | case1 => simp [collapseNewlines]
  | case2 rest ih =>
    simp only [collapseNewlines]
    by_cases hz : rest.dropWhile (fun c => decide (c = '\n')) = []
    · have hall := List.dropWhile_eq_nil_iff.mp hz
      rw [hz]
      have hnil : collapseNewlines ([] : Str) = [] := by simp [collapseNewlines]
      rw [hnil]
      by_cases hrest : rest = []
      · subst hrest
        decide
      · obtain ⟨a, ha, hmem⟩ := getLast?_some_of_ne_nil hrest
        have ha2 : a = '\n' := by
          have := hall a hmem
          simpa using this
        subst ha2
        have hr : ('\n' :: '\n' :: '\n' :: rest).getLast? = rest.getLast? := by
          have hsplit : '\n' :: '\n' :: '\n' :: rest =
              ['\n', '\n', '\n'] ++ rest := rfl
          rw [hsplit, getLast?_append_ne hrest]
        rw [hr, ha]
        decide
    · have hcz : collapseNewlines
          (rest.dropWhile (fun c => decide (c = '\n'))) ≠ [] := by
        rw [ne_eq, collapse_eq_nil_iff]
        exact hz
      have hrest : rest ≠ [] := by
        intro hr
        subst hr
        simp [List.dropWhile] at hz
      have e1 : ('\n' :: '\n' :: collapseNewlines
            (rest.dropWhile (fun c => decide (c = '\n')))).getLast? =
          (collapseNewlines
            (rest.dropWhile (fun c => decide (c = '\n')))).getLast? := by
        have hsplit : '\n' :: '\n' :: collapseNewlines
            (rest.dropWhile (fun c => decide (c = '\n'))) =
            ['\n', '\n'] ++ collapseNewlines
              (rest.dropWhile (fun c => decide (c = '\n'))) := rfl
        rw [hsplit, getLast?_append_ne hcz]
      have e2 : ('\n' :: '\n' :: '\n' :: rest).getLast? = rest.getLast? := by
        have hsplit : '\n' :: '\n' :: '\n' :: rest =
            ['\n', '\n', '\n'] ++ rest := rfl
        rw [hsplit, getLast?_append_ne hrest]
      have e3 : rest.getLast? =
          (rest.dropWhile (fun c => decide (c = '\n'))).getLast? := by
        conv_lhs =>
          rw [← List.takeWhile_append_dropWhile
            (p := fun c => decide (c = '\n')) (l := rest)]
        rw [getLast?_append_ne hz]
      rw [e1, e2, e3, ih]
  | case3 c cs h ih =>
    rw [collapse_cons_of_shape h]
    by_cases hcs : cs = []
    · subst hcs
      simp [collapseNewlines]
    · have hccs : collapseNewlines cs ≠ [] := by
        rw [ne_eq, collapse_eq_nil_iff]
        exact hcs
      have e1 : (c :: collapseNewlines cs).getLast? =
          (collapseNewlines cs).getLast? := by
        have hsplit : c :: collapseNewlines cs = [c] ++ collapseNewlines cs := rfl
        rw [hsplit, getLast?_append_ne hccs]
      have e2 : (c :: cs).getLast? = cs.getLast? := by
        have hsplit : c :: cs = [c] ++ cs := rfl
        rw [hsplit, getLast?_append_ne hcs]
      rw [e1, e2, ih]

theorem isPrefixOf_nl_false (rest : Str) {z : Str}
    (hz : ∀ d, z.head? = some d → d ≠ '\n') :
    List.isPrefixOf ('\n' :: rest) z = false := by
  cases z with
  | nil => simp [List.isPrefixOf]
  | cons d zs =>
    have hd := hz d rfl
    simp [List.isPrefixOf, Ne.symm hd]

theorem collapse_not_two_nl {cs : Str}
    (h : ∀ rest, cs = '\n' :: '\n' :: rest → False) :
    List.isPrefixOf ['\n', '\n'] (collapseNewlines cs) = false := by
  cases cs with
  | nil => simp [collapseNewlines, List.isPrefixOf]
  | cons d cs' =>
    by_cases hd : d = '\n'
    · subst hd
      cases cs' with
      | nil =>
        have e : collapseNewlines ['\n'] = ['\n'] := by
          rw [collapse_cons_of_shape (by intro rest h1 h2; simp at h2)]
          simp [collapseNewlines]
        rw [e]
        decide
      | cons e cs'' =>
        have he : e ≠ '\n' := by
          intro hee
          subst hee
          exact h cs'' rfl
        have e1 : collapseNewlines ('\n' :: e :: cs'') =
            '\n' :: collapseNewlines (e :: cs'') := by
          apply collapse_cons_of_shape
          intro rest h1 h2
          injection h2 with h3 h4
          exact he h3
        have e2 : collapseNewlines (e :: cs'') = e :: collapseNewlines cs'' := by
          apply collapse_cons_of_shape
          intro rest h1 h2
          exact he h1
        rw [e1, e2]
        simp [List.isPrefixOf, Ne.symm he]
    · have e1 : collapseNewlines (d :: cs') = d :: collapseNewlines cs' := by
        apply collapse_cons_of_shape
        intro rest h1 h2
        exact hd h1
      rw [e1]
      simp [List.isPrefixOf, Ne.symm hd]

theorem collapse_no_triple (w : Str) :
    containsSub ['\n', '\n', '\n'] (collapseNewlines w) = false := by
  induction w using collapseNewlines.induct with
  | case1 => simp [collapseNewlines, containsSub]
  | case2 rest ih =>
    simp only [collapseNewlines]
    have hznl : ∀ d, (collapseNewlines
        (rest.dropWhile (fun c => decide (c = '\n')))).head? = some d →
        d ≠ '\n' := by
      intro d hd
      rw [collapse_head] at hd
      have := head?_dropWhile_not _ _ hd
      simpa using this
    simp only [containsSub, Bool.or_eq_false_iff]
    refine ⟨?_, ?_, ih⟩
    · simp only [List.isPrefixOf, Bool.and_eq_false_iff]
      right
      right
      exact isPrefixOf_nl_false [] hznl
    · simp only [List.isPrefixOf, Bool.and_eq_false_iff]
      right
      exact isPrefixOf_nl_false ['\n'] hznl
  | case3 c cs h ih =>
    rw [collapse_cons_of_shape h]
    simp only [containsSub, Bool.or_eq_false_iff]
    refine ⟨?_, ih⟩
    by_cases hc : c = '\n'
    · subst hc
      simp only [List.isPrefixOf, Bool.and_eq_false_iff]
      right
      exact collapse_not_two_nl (fun rest hcs => h rest rfl hcs)
    · simp [List.isPrefixOf, Ne.symm hc]

theorem pyStrip_collapse_fix (x : Str) :
    pyStrip (collapseNewlines (pyStrip x)) = collapseNewlines (pyStrip x) := by
  apply pyStrip_eq_self
  · intro c hc
    rw [collapse_head] at hc
    exact pyStrip_head_not_space hc
  · intro c hc
    rw [collapse_getLast] at hc
    exact pyStrip_getLast_not_space hc

/-- The tag set for which `_html_to_markdown_recursive` has a dedicated
branch (spec §4.3's rule table, `div`/`span` included). -/
def recognizedTags : List String :=
  ["p", "br", "h1", "h2", "h3", "h4", "h5", "h6", "strong", "b", "em", "i",
   "code", "pre", "a", "ul", "ol", "blockquote", "hr", "table", "div", "span"]

/-- Spec §4.3, table row: `"| " + " | ".join(cells) + " |"`. -/
def mkRowStr (cells : List Str) : Str :=
  "| ".toList ++ joinSep " | ".toList cells ++ " |".toList

/-- Spec §4.3, table separator row with `k` columns of `---`. -/
def sepRow (k : Nat) : Str :=
  "| ".toList ++ joinSep " | ".toList (List.replicate k "---".toList) ++
    " |".toList

/-- The stripped rendered cell contents of a table element, row by row, as
the table branch computes them (`tr` elements among all descendants, then
`td`/`th` elements among each row's descendants). -/
def tableCells (children : List Node) : List (List Str) :=
  (findAllDesc ["tr"] children).map (fun tr =>
    (findAllDesc ["td", "th"] tr.children).map (fun td =>
      pyStrip (_process_children td.children)))

theorem htmlRec_text (s : Str) :
    _html_to_markdown_recursive (Node.text s) = pyStrip s := by
  simp only [_html_to_markdown_recursive]

theorem htmlRec_unrecognized {tag : String} (attrs : List (String × Str))
    (children : List Node) (h : tag ∉ recognizedTags) :
    _html_to_markdown_recursive (Node.elem tag attrs children) =
      pyStrip (joinRenders children) := by
  have hne : ∀ t ∈ recognizedTags, ¬ tag = t := fun t ht heq => h (heq ▸ ht)
  simp only [_html_to_markdown_recursive]
  simp [hne "p" (by simp [recognizedTags]), hne "br" (by simp [recognizedTags]),
    hne "h1" (by simp [recognizedTags]), hne "h2" (by simp [recognizedTags]),
    hne "h3" (by simp [recognizedTags]), hne "h4" (by simp [recognizedTags]),
    hne "h5" (by simp [recognizedTags]), hne "h6" (by simp [recognizedTags]),
    hne "strong" (by simp [recognizedTags]), hne "b" (by simp [recognizedTags]),
    hne "em" (by simp [recognizedTags]), hne "i" (by simp [recognizedTags]),
    hne "code" (by simp [recognizedTags]), hne "pre" (by simp [recognizedTags]),
    hne "a" (by simp [recognizedTags]), hne "ul" (by simp [recognizedTags]),
    hne "ol" (by simp [recognizedTags]),
    hne "blockquote" (by simp [recognizedTags]),
    hne "hr" (by simp [recognizedTags]), hne "table" (by simp [recognizedTags]),
    hne "div" (by simp [recognizedTags]), hne "span" (by simp [recognizedTags])]

theorem htmlRec_anchor (attrs : List (String × Str)) (children : List Node) :
    _html_to_markdown_recursive (Node.elem "a" attrs children) =
      (if containsSub "[entity:".toList (pyStrip (joinRenders children)) then
        pyStrip (joinRenders children)
      else '[' :: pyStrip (joinRenders children) ++ ']' :: '(' ::
        ((attrs.lookup "href").getD []) ++ [')']) := by
  simp [_html_to_markdown_recursive]

theorem htmlRec_ol (attrs : List (String × Str)) (children : List Node) :
    _html_to_markdown_recursive (Node.elem "ol" attrs children) =
      joinSep ['\n'] (numberItems 1 ((children.filter (isTag "li")).map
        (fun li => pyStrip (joinRenders li.children)))) ++ "\n\n".toList := by
  simp [_html_to_markdown_recursive, List.attach_map_val]

theorem htmlRec_table (attrs : List (String × Str)) (children : List Node) :
    _html_to_markdown_recursive (Node.elem "table" attrs children) =
      (if (tableCells children).map mkRowStr = [] then []
       else
         joinSep ['\n']
           (if 1 < ((tableCells children).map mkRowStr).length then
             List.insertIdx 1
               (sepRow ((splitOnChar '|'
                 (((tableCells children).map mkRowStr).headD [])).length - 2))
               ((tableCells children).map mkRowStr)
           else (tableCells children).map mkRowStr) ++ "\n\n".toList) := by
  simp [_html_to_markdown_recursive, tableCells, mkRowStr, sepRow,
    _process_children, List.attach_map_val, List.map_map, Function.comp_def,
    List.map_eq_nil_iff, List.attach_eq_nil_iff]
  split_ifs with h1 h2 h3
  all_goals try rfl
  all_goals exfalso
  all_goals simp_all [List.map_eq_nil_iff, List.attach_eq_nil_iff]

theorem splitOnChar_length (sep : Char) (l : Str) :
    (splitOnChar sep l).length = l.count sep + 1 := by
  induction l with
  | nil => simp [splitOnChar]
  | cons d ds ih =>
    simp only [splitOnChar]
    by_cases hd : d = sep
    · rw [if_pos hd]
      subst hd
      simp [List.count_cons, ih]
    · rw [if_neg hd]
      cases hsp : splitOnChar sep ds with
      | nil =>
        rw [hsp] at ih
        simp at ih
      | cons s ss =>
        rw [hsp] at ih
        simp only [List.length_cons] at ih
        have hcount : (d :: ds).count sep = ds.count sep := by
          simp [List.count_cons, hd]
        simp only [List.length_cons, hcount]
        omega

theorem count_pipe_joinSep : ∀ (cells : List Str), cells ≠ [] →
    (∀ cl ∈ cells, '|' ∉ cl) →
    (joinSep " | ".toList cells).count '|' = cells.length - 1
  | [], h, _ => absurd rfl h
  | [s], _, hnp => by
    simp only [joinSep, List.length_cons, List.length_nil]
    simp [List.count_eq_zero.mpr (hnp s (by simp))]
  | s :: s2 :: rest, _, hnp => by
    have ih := count_pipe_joinSep (s2 :: rest) (by simp)
      (fun cl hcl => hnp cl (by simp [hcl]))
    simp only [joinSep, List.count_append]
    have h0 : s.count '|' = 0 := List.count_eq_zero.mpr (hnp s (by simp))
    have h1 : (" | ".toList).count '|' = 1 := by decide
    rw [h0, h1, ih]
    simp only [List.length_cons]
    omega

theorem splitOnChar_mkRowStr_length {cells : List Str} (hne : cells ≠ [])
    (hnp : ∀ cl ∈ cells, '|' ∉ cl) :
    (splitOnChar '|' (mkRowStr cells)).length - 2 = cells.length := by
  rw [splitOnChar_length, mkRowStr]
  simp only [List.count_append]
  rw [count_pipe_joinSep cells hne hnp]
  have h0 : ("| ".toList).count '|' = 1 := by decide
  have h1 : (" |".toList).count '|' = 1 := by decide
  rw [h0, h1]
  have := List.length_pos.mpr hne
  omega

theorem insertIdx_one_cons (x a : Str) (l : List Str) :
    List.insertIdx 1 x (a :: l) = a :: x :: l := rfl

theorem numberItems_eq_enumFrom : ∀ (n : Nat) (l : List Str),
    numberItems n l = (List.enumFrom n l).map
      (fun q => natRepr q.1 ++ ". ".toList ++ q.2)
  | _, [] => by simp [numberItems]
  | n, s :: ss => by
    rw [numberItems, List.enumFrom_cons]
    simp only [List.map_cons]
    rw [numberItems_eq_enumFrom (n + 1) ss]

/-- The parsed fragment of the C2 failing input `<p>[entity:42]</p>`. -/
def c2Tree : List Node := [Node.elem "p" [] [Node.text ("[entity:42]".toList)]]

/-- The parsed children of the 2-row/3-column table with cells A,B,C / D,E,F. -/
def c4Children : List Node :=
  [Node.elem "tr" [] [Node.elem "td" [] [Node.text ("A".toList)],
     Node.elem "td" [] [Node.text ("B".toList)],
     Node.elem "td" [] [Node.text ("C".toList)]],
   Node.elem "tr" [] [Node.elem "td" [] [Node.text ("D".toList)],
     Node.elem "td" [] [Node.text ("E".toList)],
     Node.elem "td" [] [Node.text ("F".toList)]]]

theorem protect_entity42 : _protect_mentions ("[entity:42]".toList) = none := by
  rw [_protect_mentions, protectLoop]
  have h : findMention ("[entity:42]".toList) =
      some ([], ("42".toList, none), []) := by decide
  rw [h]
  rfl

/-- C1: the spec claims that protecting and then restoring is the identity on
every string of well-formed mentions.  The code cannot deliver this:
`PLACEHOLDER_TEMPLATE` (`__KANKA_MENTION_\x7b\x7d__\x7b\x7d`) has two
positional fields but `format` is given a single argument, so
`_protect_mentions` raises `IndexError` (modelled as `none`) on any string
containing a well-formed mention — here at the failing input `[entity:42]`,
which the mention pattern does match — instead of returning a protected
string and a mapping. -/
theorem c1_protect_raises_on_mention :
    _protect_mentions ("[entity:42]".toList) = none ∧
    findMention ("[entity:42]".toList) =
      some ([], ("42".toList, none), []) :=
  ⟨protect_entity42, by decide⟩

/-- C2: the spec claims `markdown_to_html (html_to_markdown h)` preserves
every mention of `h`.  For `h = <p>[entity:42]</p>`, `html_to_markdown`
correctly emits `[entity:42]`, but `markdown_to_html` then raises
`IndexError` inside `_protect_mentions` (the two-field placeholder template),
for every possible external Markdown renderer, instead of returning HTML
containing the mention. -/
theorem c2_roundtrip_raises :
    html_to_markdown c2Tree = "[entity:42]".toList ∧
    ∀ mdConvert : Str → Str,
      markdown_to_html mdConvert (html_to_markdown c2Tree) = none := by
  have h1 : html_to_markdown c2Tree = "[entity:42]".toList := by
    simp +decide [c2Tree, html_to_markdown, _html_to_markdown_recursive,
      joinRenders, collapseNewlines, pyStrip, pyIsSpace]
  refine ⟨h1, fun mdConvert => ?_⟩
  rw [h1, markdown_to_html, if_neg (by decide), protect_entity42]

/-- C9: a string containing only malformed mentions (and hence no well-formed
mention substring) is not matched by the mention pattern at all:
`_protect_mentions` returns it unchanged with an empty mapping and raises
nothing, and the whole conversion applies only the external renderer to the
unchanged text. -/
theorem c9_malformed_mentions_pass_through (s : Str) (hne : s ≠ [])
    (h : ¬ ContainsMention s) :
    findMention s = none ∧ _protect_mentions s = some (s, []) ∧
    ∀ mdConvert : Str → Str,
      markdown_to_html mdConvert s = some (mdConvert s) := by
  have hf : findMention s = none := by
    cases hfm : findMention s with
    | none => rfl
    | some v =>
      obtain ⟨pre, m, post⟩ := v
      exact absurd (containsMention_of_findMention hfm) h
  have hp : _protect_mentions s = some (s, []) := by
    rw [_protect_mentions]
    exact protectLoop_no_match 0 hf
  refine ⟨hf, hp, fun mdConvert => ?_⟩
  rw [markdown_to_html, if_neg hne, hp]
  rfl

/-- Witness for C9 at the concrete input `[entity:abc] [entity:5|x`, whose
mentions are malformed (non-numeric id; unterminated display text). -/
theorem c9_malformed_mentions_pass_through_witness :
    findMention ("[entity:abc] [entity:5|x".toList) = none ∧
    _protect_mentions ("[entity:abc] [entity:5|x".toList) =
      some ("[entity:abc] [entity:5|x".toList, []) := by
  have hnc : ¬ ContainsMention ("[entity:abc] [entity:5|x".toList) :=
    fun hc => findMention_of_containsMention hc (by decide)
  have h := c9_malformed_mentions_pass_through
    ("[entity:abc] [entity:5|x".toList) (by decide) hnc
  exact ⟨h.1, h.2.1⟩

/-- C3 counterexample: for the unrecognized tag `section` wrapping
`<p>b</p>`, the element renders to `b` — the concatenation of its children's
renderings is `b\n\n`, and the renderer strips it — so the claim's
"pass-through concatenation of its children's renderings" is false as
stated. -/
theorem c3_counterexample :
    _html_to_markdown_recursive
        (Node.elem "section" [] [Node.elem "p" [] [Node.text ("b".toList)]]) =
      "b".toList ∧
    joinRenders [Node.elem "p" [] [Node.text ("b".toList)]] = "b\n\n".toList ∧
    ("b".toList : Str) ≠ "b\n\n".toList := by
  refine ⟨?_, ?_, by decide⟩
  · simp +decide [_html_to_markdown_recursive, joinRenders, pyStrip, pyIsSpace]
  · simp +decide [_html_to_markdown_recursive, joinRenders, pyStrip, pyIsSpace]

/-- C3 amended: `_html_to_markdown_recursive` is a total function on fragment
trees (it is defined for every tree and always returns a string), and an
element whose tag is outside the recognized set renders exactly like the
`div`/`span` pass-through: the concatenation of its children's renderings
with leading and trailing whitespace stripped, with no wrapping. -/
theorem c3_unrecognized_tag_amended (tag : String)
    (attrs : List (String × Str)) (children : List Node)
    (h : tag ∉ recognizedTags) :
    _html_to_markdown_recursive (Node.elem tag attrs children) =
      _process_children children ∧
    _process_children children = pyStrip (joinRenders children) :=
  ⟨htmlRec_unrecognized attrs children h, rfl⟩

/-- Witness for C3 at the concrete unrecognized tag `section`. -/
theorem c3_unrecognized_tag_amended_witness :
    ("section" : String) ∉ recognizedTags ∧
    _html_to_markdown_recursive
        (Node.elem "section" [] [Node.text ("x".toList)]) =
      _process_children [Node.text ("x".toList)] :=
  ⟨by decide,
   (c3_unrecognized_tag_amended "section" [] [Node.text ("x".toList)]
     (by decide)).1⟩

/-- C5 counterexample: the text leaf `" hi "` renders to `"hi"`; the leaf's
leading and trailing whitespace is not preserved, refuting the claim as
stated. -/
theorem c5_counterexample :
    _html_to_markdown_recursive (Node.text (" hi ".toList)) = "hi".toList ∧
    ("hi".toList : Str) ≠ " hi ".toList := by
  refine ⟨?_, by decide⟩
  rw [htmlRec_text]
  decide

/-- C5 amended: a text leaf emits its raw text with leading and trailing
whitespace stripped (`str(element).strip()`); the interior characters are
emitted unchanged — the output is an infix of the leaf's text surrounded
only by whitespace. -/
theorem c5_text_leaf_amended (s : Str) :
    _html_to_markdown_recursive (Node.text s) = pyStrip s ∧
    ∃ pre suf, s = pre ++ pyStrip s ++ suf ∧
      (∀ c ∈ pre, pyIsSpace c = true) ∧ ∀ c ∈ suf, pyIsSpace c = true :=
  ⟨htmlRec_text s, pyStrip_decomp s⟩

/-- C6: an anchor renders its children as the link text; if that text
contains the mention marker `[entity:`, the anchor renders as the text alone
with no markdown-link wrapper, otherwise as `[text](href)` with `href`
defaulting to the empty string; in particular
`<a href="https://example.com">[entity:42]</a>` renders to exactly
`[entity:42]`. -/
theorem c6_anchor_rule :
    (∀ (attrs : List (String × Str)) (children : List Node),
      _html_to_markdown_recursive (Node.elem "a" attrs children) =
        (if containsSub "[entity:".toList (_process_children children) then
          _process_children children
        else '[' :: _process_children children ++ ']' :: '(' ::
          ((attrs.lookup "href").getD []) ++ [')'])) ∧
    _html_to_markdown_recursive (Node.elem "a"
        [("href", "https://example.com".toList)]
        [Node.text ("[entity:42]".toList)]) = "[entity:42]".toList := by
  constructor
  · intro attrs children
    rw [htmlRec_anchor]
    rfl
  · rw [htmlRec_anchor]
    simp +decide [joinRenders, _html_to_markdown_recursive, pyStrip, pyIsSpace]

/-- C10: the anchor passthrough is a bare substring test on the rendered
child text: any text containing the substring `[entity:` — even the
malformed `[entity:abc` — is emitted alone, discarding `href` entirely, and
the `[text](href)` form is produced exactly when the substring is absent. -/
theorem c10_anchor_bare_substring_test :
    (∀ href : Str,
      _html_to_markdown_recursive (Node.elem "a" [("href", href)]
          [Node.text ("[entity:abc".toList)]) = "[entity:abc".toList) ∧
    (∀ (attrs : List (String × Str)) (children : List Node),
      containsSub "[entity:".toList (_process_children children) = false →
      _html_to_markdown_recursive (Node.elem "a" attrs children) =
        '[' :: _process_children children ++ ']' :: '(' ::
          ((attrs.lookup "href").getD []) ++ [')']) := by
  constructor
  · intro href
    rw [htmlRec_anchor]
    have ht : pyStrip (joinRenders [Node.text ("[entity:abc".toList)]) =
        "[entity:abc".toList := by
      simp +decide [joinRenders, _html_to_markdown_recursive, pyStrip,
        pyIsSpace]
    rw [ht, if_pos (by decide)]
  · intro attrs children h
    have h' : containsSub ['[', 'e', 'n', 't', 'i', 't', 'y', ':']
        (pyStrip (joinRenders children)) = false := h
    rw [htmlRec_anchor, if_neg (by simp [h'])]
    rfl

/-- Witness for C10: for child text `hello` (marker absent) the anchor
renders as the markdown link `[hello](u)`. -/
theorem c10_anchor_bare_substring_test_witness :
    containsSub "[entity:".toList
      (_process_children [Node.text ("hello".toList)]) = false ∧
    _html_to_markdown_recursive (Node.elem "a" [("href", "u".toList)]
      [Node.text ("hello".toList)]) = "[hello](u)".toList := by
  have hpc : _process_children [Node.text ("hello".toList)] =
      "hello".toList := by
    simp +decide [_process_children, joinRenders, _html_to_markdown_recursive,
      pyStrip, pyIsSpace]
  have hcond : containsSub "[entity:".toList
      (_process_children [Node.text ("hello".toList)]) = false := by
    rw [hpc]
    decide
  refine ⟨hcond, ?_⟩
  rw [c10_anchor_bare_substring_test.2 _ _ hcond, hpc]
  decide

/-- C7: the final cleanup of `html_to_markdown` guarantees that the output
contains no run of three or more consecutive newlines and has no leading or
trailing whitespace (its strip is itself); consequently five consecutive
`<br>` (four blank lines in the serialized tree) collapse to exactly one
blank line. -/
theorem c7_final_cleanup (children : List Node) :
    containsSub "\n\n\n".toList (html_to_markdown children) = false ∧
    pyStrip (html_to_markdown children) = html_to_markdown children ∧
    html_to_markdown [Node.text ("a".toList), Node.elem "br" [] [],
      Node.elem "br" [] [], Node.elem "br" [] [], Node.elem "br" [] [],
      Node.elem "br" [] [], Node.text ("b".toList)] = "a\n\nb".toList := by
  refine ⟨?_, ?_, ?_⟩
  · have hpat : ("\n\n\n".toList : Str) = ['\n', '\n', '\n'] := rfl
    rw [html_to_markdown, hpat]
    exact collapse_no_triple _
  · rw [html_to_markdown]
    exact pyStrip_collapse_fix _
  · simp +decide [html_to_markdown, _html_to_markdown_recursive, joinRenders,
      collapseNewlines, pyStrip, pyIsSpace]

/-- C8: the direct list-item children of an ordered list are rendered with
fresh 1-based sequential prefixes `1. `, `2. `, … in document order,
independently of any attributes (`start` on the list, `value` on the items)
in the source markup; the items are joined by newlines and the list is
followed by two trailing newlines.  In particular a 3-item list with stray
numeric labels renders as `1. x`, `2. y`, `3. z`. -/
theorem c8_ordered_list_numbering :
    (∀ (attrs : List (String × Str))
      (items : List (List (String × Str) × List Node)),
      _html_to_markdown_recursive (Node.elem "ol" attrs
          (items.map (fun p => Node.elem "li" p.1 p.2))) =
        joinSep ['\n'] ((List.enumFrom 1
            (items.map (fun p => _process_children p.2))).map
          (fun q => natRepr q.1 ++ ". ".toList ++ q.2)) ++ "\n\n".toList) ∧
    _html_to_markdown_recursive (Node.elem "ol" [("start", "7".toList)]
        [Node.elem "li" [("value", "9".toList)] [Node.text ("x".toList)],
         Node.elem "li" [] [Node.text ("y".toList)],
         Node.elem "li" [] [Node.text ("z".toList)]]) =
      "1. x\n2. y\n3. z\n\n".toList := by
  constructor
  · intro attrs items
    rw [htmlRec_ol]
    have hfilter : (items.map (fun p => Node.elem "li" p.1 p.2)).filter
        (isTag "li") = items.map (fun p => Node.elem "li" p.1 p.2) := by
      rw [List.filter_eq_self]
      intro a ha
      obtain ⟨p, hp, rfl⟩ := List.mem_map.mp ha
      simp [isTag]
    rw [hfilter, numberItems_eq_enumFrom, List.map_map]
    rfl
  · rw [htmlRec_ol]
    simp +decide [joinRenders, _html_to_markdown_recursive, pyStrip, pyIsSpace,
      numberItems, natRepr, joinSep, isTag, Node.children]

/-- C4 counterexample: a 1-row table renders with no separator row at all
(`| A |` followed by a blank line, no `---` anywhere), refuting the claim
that a separator is inserted immediately after the first row of every
table. -/
theorem c4_table_counterexample :
    _html_to_markdown_recursive (Node.elem "table" []
        [Node.elem "tr" [] [Node.elem "td" [] [Node.text ("A".toList)]]]) =
      "| A |\n\n".toList ∧
    containsSub "---".toList ("| A |\n\n".toList) = false := by
  refine ⟨?_, by decide⟩
  rw [htmlRec_table]
  simp +decide [tableCells, findAllDesc, Node.children, _process_children,
    joinRenders, _html_to_markdown_recursive, pyStrip, pyIsSpace, mkRowStr,
    joinSep, splitOnChar, sepRow]

/-- C4 amended: every row renders as `| cell | cell | ... |`; a table with no
rows renders to the empty string; a single-row table renders its row followed
by two newlines with no separator; and when the table has at least two rows a
separator row of `---` repeated once per column is inserted immediately after
the first row, the column count equalling the number of cells in the first
row whenever the first row is nonempty and no rendered first-row cell
contains `|` (the code derives the count by splitting the rendered first row
on `|`); the whole table is followed by two trailing newlines. -/
theorem c4_table_amended (attrs : List (String × Str)) (children : List Node) :
    (tableCells children = [] →
      _html_to_markdown_recursive (Node.elem "table" attrs children) = []) ∧
    (∀ cells0 : List Str, tableCells children = [cells0] →
      _html_to_markdown_recursive (Node.elem "table" attrs children) =
        mkRowStr cells0 ++ "\n\n".toList) ∧
    (∀ (cells0 : List Str) (rest : List (List Str)),
      tableCells children = cells0 :: rest → rest ≠ [] → cells0 ≠ [] →
      (∀ c ∈ cells0, '|' ∉ c) →
      _html_to_markdown_recursive (Node.elem "table" attrs children) =
        joinSep ['\n']
          (mkRowStr cells0 :: sepRow cells0.length :: rest.map mkRowStr) ++
          "\n\n".toList) := by
  refine ⟨?_, ?_, ?_⟩
  · intro h
    rw [htmlRec_table, h]
    simp
  · intro cells0 h
    rw [htmlRec_table, h]
    simp [joinSep]
  · intro cells0 rest h hrest h0 hnp
    rw [htmlRec_table, h]
    have hlen : 1 < ((cells0 :: rest).map mkRowStr).length := by
      have := List.length_pos.mpr hrest
      simp only [List.map_cons, List.length_cons, List.length_map]
      omega
    rw [if_neg (by simp), if_pos hlen]
    simp only [List.map_cons, List.headD_cons]
    rw [splitOnChar_mkRowStr_length h0 hnp, insertIdx_one_cons]

/-- Witness for C4: the 2-row/3-column table with cells A,B,C / D,E,F renders
to exactly `| A | B | C |`, `| --- | --- | --- |`, `| D | E | F |`, then a
blank line. -/
theorem c4_table_amended_witness :
    _html_to_markdown_recursive (Node.elem "table" [] c4Children) =
      "| A | B | C |\n| --- | --- | --- |\n| D | E | F |\n\n".toList := by
  have hcells : tableCells c4Children =
      ["A".toList, "B".toList, "C".toList] ::
        [["D".toList, "E".toList, "F".toList]] := by
    simp +decide [c4Children, tableCells, findAllDesc, Node.children,
      _process_children, joinRenders, _html_to_markdown_recursive, pyStrip,
      pyIsSpace]
  rw [(c4_table_amended [] c4Children).2.2
    ["A".toList, "B".toList, "C".toList] [["D".toList, "E".toList, "F".toList]]
    hcells (by decide) (by decide) (by decide)]
  decide
